import Mathlib

/-!
Shallow embedding of the patrol repository's core: the value types
(`Hash`, timestamps), the TOML-backed data and config repositories with
their capture/restore write path, and the engine's per-tick fan-out loop.
Every definition is translated from the Rust source files; theorems below
settle the frozen claims about them.
-/

namespace Patrol

/-! ### Finite maps

The repositories keep their in-memory state in `std::collections::HashMap`.
A `HashMap` is modelled as an association list without duplicate keys;
`mapGet`, `mapInsert` and `mapRemove` model `get`/`get_mut`, `insert` and
`remove`. `mapInsert` replaces an existing entry in place, so on a map
without duplicate keys the three operations have exactly the `HashMap`
semantics. -/

/-- Lookup of a key, modelling `HashMap::get`. -/
def mapGet {α : Type} : List (String × α) → String → Option α
  | [], _ => none
  | (k, v) :: rest, q => if k = q then some v else mapGet rest q

/-- Upsert of a key, modelling `HashMap::insert` (replaces the entry for an
existing key, appends a fresh key). -/
def mapInsert {α : Type} : List (String × α) → String → α → List (String × α)
  | [], k, v => [(k, v)]
  | (k0, v0) :: rest, k, v =>
    if k0 = k then (k, v) :: rest else (k0, v0) :: mapInsert rest k v

/-- Removal of a key, modelling `HashMap::remove` (drops the first entry for
the key; on a map without duplicate keys this is the entry). -/
def mapRemove {α : Type} : List (String × α) → String → List (String × α)
  | [], _ => []
  | (k0, v0) :: rest, k => if k0 = k then rest else (k0, v0) :: mapRemove rest k

/-- The keys of the modelled map. -/
def mapKeys {α : Type} (m : List (String × α)) : List String := m.map Prod.fst

/-- A well-formed `HashMap` model: no key occurs twice. -/
def mapNodup {α : Type} (m : List (String × α)) : Prop := (mapKeys m).Nodup

theorem mapGet_insert_self {α : Type} (m : List (String × α)) (k : String) (v : α) :
    mapGet (mapInsert m k v) k = some v := by
  induction m with
  | nil => simp [mapInsert, mapGet]
  | cons hd tl ih =>
    obtain ⟨k0, v0⟩ := hd
    by_cases h : k0 = k
    · simp [mapInsert, h, mapGet]
    · simp [mapInsert, h, mapGet, ih]

theorem mapGet_insert_ne {α : Type} (m : List (String × α)) (k q : String) (v : α)
    (h : q ≠ k) : mapGet (mapInsert m k v) q = mapGet m q := by
  induction m with
  | nil => simp [mapInsert, mapGet, Ne.symm h]
  | cons hd tl ih =>
    obtain ⟨k0, v0⟩ := hd
    by_cases hk : k0 = k
    · subst hk
      simp [mapInsert, mapGet, Ne.symm h]
    · by_cases hq : k0 = q
      · simp [mapInsert, hk, mapGet, hq, h]
      · simp [mapInsert, hk, mapGet, hq, ih]

theorem mapGet_remove_ne {α : Type} (m : List (String × α)) (k q : String)
    (h : q ≠ k) : mapGet (mapRemove m k) q = mapGet m q := by
  induction m with
  | nil => simp [mapRemove]
  | cons hd tl ih =>
    obtain ⟨k0, v0⟩ := hd
    by_cases hk : k0 = k
    · subst hk
      simp [mapRemove, mapGet, Ne.symm h]
    · by_cases hq : k0 = q
      · simp [mapRemove, hk, mapGet, hq, h]
      · simp [mapRemove, hk, mapGet, hq, ih]

theorem mapGet_eq_none_of_not_mem {α : Type} (m : List (String × α)) (k : String)
    (h : k ∉ mapKeys m) : mapGet m k = none := by
  induction m with
  | nil => simp [mapGet]
  | cons hd tl ih =>
    obtain ⟨k0, v0⟩ := hd
    simp only [mapKeys, List.map_cons, List.mem_cons, not_or] at h
    obtain ⟨h1, h2⟩ := h
    simp only [mapGet, if_neg (fun hh : k0 = k => h1 hh.symm)]
    exact ih (by simpa [mapKeys] using h2)

theorem mapGet_remove_self {α : Type} (m : List (String × α)) (k : String)
    (hm : mapNodup m) : mapGet (mapRemove m k) k = none := by
  induction m with
  | nil => simp [mapRemove, mapGet]
  | cons hd tl ih =>
    obtain ⟨k0, v0⟩ := hd
    simp only [mapNodup, mapKeys, List.map_cons, List.nodup_cons] at hm
    by_cases hk : k0 = k
    · subst hk
      simp only [mapRemove, if_pos rfl]
      exact mapGet_eq_none_of_not_mem tl k0 hm.1
    · simp [mapRemove, hk, mapGet]
      exact ih hm.2

theorem mapInsert_mapInsert_cancel {α : Type} (m : List (String × α)) (k : String)
    (v d : α) (h : mapGet m k = some d) :
    mapInsert (mapInsert m k v) k d = m := by
  induction m with
  | nil => simp [mapGet] at h
  | cons hd tl ih =>
    obtain ⟨k0, v0⟩ := hd
    by_cases hk : k0 = k
    · subst hk
      simp [mapGet] at h
      subst h
      simp [mapInsert]
    · simp only [mapGet, if_neg hk] at h
      simp [mapInsert, hk, ih h]

theorem mapRemove_mapInsert_cancel {α : Type} (m : List (String × α)) (k : String)
    (v : α) (h : mapGet m k = none) :
    mapRemove (mapInsert m k v) k = m := by
  induction m with
  | nil => simp [mapInsert, mapRemove]
  | cons hd tl ih =>
    obtain ⟨k0, v0⟩ := hd
    by_cases hk : k0 = k
    · subst hk
      simp [mapGet] at h
    · simp only [mapGet, if_neg hk] at h
      simp [mapInsert, hk, mapRemove, ih h]

theorem mapRemove_of_get_none {α : Type} (m : List (String × α)) (k : String)
    (h : mapGet m k = none) : mapRemove m k = m := by
  induction m with
  | nil => simp [mapRemove]
  | cons hd tl ih =>
    obtain ⟨k0, v0⟩ := hd
    by_cases hk : k0 = k
    · subst hk
      simp [mapGet] at h
    · simp only [mapGet, if_neg hk] at h
      simp [mapRemove, hk, ih h]

theorem mapKeys_insert_subset {α : Type} (m : List (String × α)) (k : String) (v : α) :
    ∀ q, q ∈ mapKeys (mapInsert m k v) → q ∈ mapKeys m ∨ q = k := by
  induction m with
  | nil => intro q hq; simp [mapInsert, mapKeys] at hq; right; exact hq
  | cons hd tl ih =>
    obtain ⟨k0, v0⟩ := hd
    intro q hq
    by_cases hk : k0 = k
    · subst hk
      simp [mapInsert, mapKeys] at hq ⊢
      tauto
    · simp only [mapInsert, if_neg hk, mapKeys, List.map_cons, List.mem_cons] at hq ⊢
      rcases hq with hh | hh
      · tauto
      · rcases ih q hh with h2 | h2 <;> tauto

theorem mapNodup_insert {α : Type} (m : List (String × α)) (k : String) (v : α)
    (hm : mapNodup m) : mapNodup (mapInsert m k v) := by
  induction m with
  | nil => simp [mapInsert, mapNodup, mapKeys]
  | cons hd tl ih =>
    obtain ⟨k0, v0⟩ := hd
    simp only [mapNodup, mapKeys, List.map_cons, List.nodup_cons] at hm
    by_cases hk : k0 = k
    · subst hk
      simpa [mapInsert, mapNodup, mapKeys, List.nodup_cons] using hm
    · have htl := ih hm.2
      simp only [mapInsert, if_neg hk, mapNodup, mapKeys, List.map_cons,
        List.nodup_cons]
      refine ⟨?_, htl⟩
      intro hmem
      rcases mapKeys_insert_subset tl k v k0 hmem with h | h
      · exact hm.1 h
      · exact hk h

theorem mapKeys_remove_subset {α : Type} (m : List (String × α)) (k : String) :
    ∀ q, q ∈ mapKeys (mapRemove m k) → q ∈ mapKeys m := by
  induction m with
  | nil => intro q hq; simpa [mapRemove] using hq
  | cons hd tl ih =>
    obtain ⟨k0, v0⟩ := hd
    intro q hq
    by_cases hk : k0 = k
    · subst hk
      simp only [mapRemove, if_pos rfl] at hq
      simp only [mapKeys, List.map_cons, List.mem_cons]
      right; exact hq
    · simp only [mapRemove, if_neg hk, mapKeys, List.map_cons, List.mem_cons] at hq ⊢
      rcases hq with h | h
      · left; exact h
      · right; exact ih q h

theorem mapNodup_remove {α : Type} (m : List (String × α)) (k : String)
    (hm : mapNodup m) : mapNodup (mapRemove m k) := by
  induction m with
  | nil => simp [mapRemove, mapNodup, mapKeys]
  | cons hd tl ih =>
    obtain ⟨k0, v0⟩ := hd
    simp only [mapNodup, mapKeys, List.map_cons, List.nodup_cons] at hm
    by_cases hk : k0 = k
    · subst hk
      simpa [mapRemove, mapNodup, mapKeys] using hm.2
    · simp only [mapRemove, if_neg hk, mapNodup, mapKeys, List.map_cons,
        List.nodup_cons]
      exact ⟨fun hmem => hm.1 (mapKeys_remove_subset tl k k0 hmem), ih hm.2⟩

/-! ### Timestamps

`domain/models/timestamp.rs` wraps a `chrono::NaiveDateTime`, a totally
ordered instant. The claims use only the ordering and equality of instants,
so a `Timestamp` is modelled by a plain natural number (`Nat`) below. -/

/-! ### SHA-256

`Hash::new` in `domain/models/hash.rs` digests the input bytes with the
`sha2` crate's SHA-256. The algorithm (FIPS 180-4) is embedded below;
`u32` arithmetic is `Nat` arithmetic reduced `% 2 ^ 32`, and bytes are
naturals (`u8` values are below 256; the digest's bytes are produced by
`% 256` and so are always below 256). -/

/-- The `u32` modulus. -/
def M32 : Nat := 4294967296

/-- Right rotation of a 32-bit word. -/
def rotr32 (n x : Nat) : Nat := ((x >>> n) ||| (x <<< (32 - n))) % M32

/-- SHA-256 `Ch` function; complement in `u32` is xor with `2 ^ 32 - 1`. -/
def shaCh (x y z : Nat) : Nat := (x &&& y) ^^^ ((x ^^^ (M32 - 1)) &&& z)

/-- SHA-256 `Maj` function. -/
def shaMaj (x y z : Nat) : Nat := (x &&& y) ^^^ (x &&& z) ^^^ (y &&& z)

/-- SHA-256 big sigma 0. -/
def bsig0 (x : Nat) : Nat := rotr32 2 x ^^^ rotr32 13 x ^^^ rotr32 22 x

/-- SHA-256 big sigma 1. -/
def bsig1 (x : Nat) : Nat := rotr32 6 x ^^^ rotr32 11 x ^^^ rotr32 25 x

/-- SHA-256 small sigma 0. -/
def ssig0 (x : Nat) : Nat := rotr32 7 x ^^^ rotr32 18 x ^^^ (x >>> 3)

/-- SHA-256 small sigma 1. -/
def ssig1 (x : Nat) : Nat := rotr32 17 x ^^^ rotr32 19 x ^^^ (x >>> 10)

/-- The 64 SHA-256 round constants. -/
def shaK : List Nat :=
  [1116352408, 1899447441, 3049323471, 3921009573, 961987163,
   1508970993, 2453635748, 2870763221, 3624381080, 310598401,
   607225278, 1426881987, 1925078388, 2162078206, 2614888103,
   3248222580, 3835390401, 4022224774, 264347078, 604807628,
   770255983, 1249150122, 1555081692, 1996064986, 2554220882,
   2821834349, 2952996808, 3210313671, 3336571891, 3584528711,
   113926993, 338241895, 666307205, 773529912, 1294757372,
   1396182291, 1695183700, 1986661051, 2177026350, 2456956037,
   2730485921, 2820302411, 3259730800, 3345764771, 3516065817,
   3600352804, 4094571909, 275423344, 430227734, 506948616,
   659060556, 883997877, 958139571, 1322822218, 1537002063,
   1747873779, 1955562222, 2024104815, 2227730452, 2361852424,
   2428436474, 2756734187, 3204031479, 3329325298]

/-- Big-endian serialization of a 64-bit length value into 8 bytes. -/
def be64 (n : Nat) : List Nat :=
  [(n >>> 56) % 256, (n >>> 48) % 256, (n >>> 40) % 256, (n >>> 32) % 256,
   (n >>> 24) % 256, (n >>> 16) % 256, (n >>> 8) % 256, n % 256]

/-- SHA-256 padding: append `0x80`, zero bytes to 56 mod 64, then the
bit length as a big-endian 64-bit value. -/
def sha256pad (msg : List Nat) : List Nat :=
  let z := (64 + 56 - (msg.length + 1) % 64) % 64
  msg ++ 128 :: List.replicate z 0 ++ be64 (msg.length * 8)

/-- Split the padded message into 64-byte blocks. -/
def toBlocks (l : List Nat) : List (List Nat) :=
  if h : l = [] then []
  else l.take 64 :: toBlocks (l.drop 64)
termination_by l.length
decreasing_by
  simp only [List.length_drop]
  have : 0 < l.length := List.length_pos.mpr h
  omega

/-- Combine bytes into big-endian 32-bit words. -/
def toWords : List Nat → List Nat
  | b0 :: b1 :: b2 :: b3 :: rest =>
    (((b0 * 256 + b1) * 256 + b2) * 256 + b3) :: toWords rest
  | _ => []

/-- Extend the 16 message-schedule words by `n` further words. -/
def shaSched (w : List Nat) : Nat → List Nat
  | 0 => w
  | n + 1 =>
    let w2 := shaSched w n
    let i := w2.length
    w2 ++ [(ssig1 (w2.getD (i - 2) 0) + w2.getD (i - 7) 0 +
            ssig0 (w2.getD (i - 15) 0) + w2.getD (i - 16) 0) % M32]

/-- The eight working variables of the SHA-256 compression function. -/
structure SHAState where
  a : Nat
  b : Nat
  c : Nat
  d : Nat
  e : Nat
  f : Nat
  g : Nat
  h : Nat

/-- One SHA-256 compression round. -/
def compressRound (st : SHAState) (ki wi : Nat) : SHAState :=
  let t1 := (st.h + bsig1 st.e + shaCh st.e st.f st.g + ki + wi) % M32
  let t2 := (bsig0 st.a + shaMaj st.a st.b st.c) % M32
  ⟨(t1 + t2) % M32, st.a, st.b, st.c, (st.d + t1) % M32, st.e, st.f, st.g⟩

/-- Compress one 64-byte block into the running state. -/
def compressBlock (hs : SHAState) (block : List Nat) : SHAState :=
  let w := shaSched (toWords block) 48
  let st := (shaK.zip w).foldl (fun st kw => compressRound st kw.1 kw.2) hs
  ⟨(hs.a + st.a) % M32, (hs.b + st.b) % M32, (hs.c + st.c) % M32,
   (hs.d + st.d) % M32, (hs.e + st.e) % M32, (hs.f + st.f) % M32,
   (hs.g + st.g) % M32, (hs.h + st.h) % M32⟩

/-- The SHA-256 initial hash values. -/
def shaInit : SHAState :=
  ⟨1779033703, 3144134277, 1013904242, 2773480762,
   1359893119, 2600822924, 528734635, 1541459225⟩

/-- Digest a byte sequence into the final state. -/
def sha256 (msg : List Nat) : SHAState :=
  (toBlocks (sha256pad msg)).foldl compressBlock shaInit

/-- Big-endian serialization of one 32-bit word into 4 bytes. -/
def wordBytes (x : Nat) : List Nat :=
  [(x >>> 24) % 256, (x >>> 16) % 256, (x >>> 8) % 256, x % 256]

/-- The 32-byte SHA-256 digest of a byte sequence. -/
def sha256bytes (msg : List Nat) : List Nat :=
  let s := sha256 msg
  wordBytes s.a ++ wordBytes s.b ++ wordBytes s.c ++ wordBytes s.d ++
  wordBytes s.e ++ wordBytes s.f ++ wordBytes s.g ++ wordBytes s.h

theorem wordBytes_length (x : Nat) : (wordBytes x).length = 4 := by
  simp [wordBytes]

theorem wordBytes_lt (x : Nat) : ∀ y ∈ wordBytes x, y < 256 := by
  intro y hy
  simp only [wordBytes, List.mem_cons, List.not_mem_nil, or_false] at hy
  rcases hy with h | h | h | h <;> subst h <;> exact Nat.mod_lt _ (by decide)

theorem sha256bytes_length (msg : List Nat) : (sha256bytes msg).length = 32 := by
  simp [sha256bytes, wordBytes]

theorem sha256bytes_lt (msg : List Nat) : ∀ y ∈ sha256bytes msg, y < 256 := by
  intro y hy
  simp only [sha256bytes, List.mem_append] at hy
  rcases hy with ((((((h | h) | h) | h) | h) | h) | h) | h <;>
    exact wordBytes_lt _ y h

/-! ### Hash (`domain/models/hash.rs`)

`Hash` wraps a `[u8; 32]`: a list of 32 bytes, each below 256. -/

/-- The `Hash` value type: 32 bytes. -/
def Hash := { l : List Nat // l.length = 32 ∧ ∀ y ∈ l, y < 256 }

instance : DecidableEq Hash := fun a b =>
  decidable_of_iff (a.val = b.val) Subtype.ext_iff.symm

/-- `Hash::new`: the SHA-256 digest of the input bytes. -/
def Hash.new (msg : List Nat) : Hash :=
  ⟨sha256bytes msg, sha256bytes_length msg, sha256bytes_lt msg⟩

/-- Rust `u8::is_ascii_digit`. -/
def isAsciiDigit (b : Nat) : Bool := 48 ≤ b && b ≤ 57

/-- Rust `u8::is_ascii_hexdigit` (digits plus upper- and lower-case a-f). -/
def isAsciiHexdigit (b : Nat) : Bool :=
  isAsciiDigit b || (65 ≤ b && b ≤ 70) || (97 ≤ b && b ≤ 102)

/-- The local decoder `fn f` inside `Hash::from_hash_str`: digit bytes map to
their value, other hex digit bytes map to `(b % 0x10) + 0x09`. -/
def Hash.f (b : Nat) : Option Nat :=
  if isAsciiDigit b then some (b - 48)
  else if isAsciiHexdigit b then some ((b % 16) + 9)
  else none

/-- The `chunks_exact(2)` decoding loop of `Hash::from_hash_str`: each pair
of hex-digit bytes becomes the byte `a * 0x10 + b`; a non-digit byte aborts
with the parse error (the `?` operator). -/
def decodePairs : List Nat → Option (List Nat)
  | [] => some []
  | a :: b :: rest =>
    match Hash.f a with
    | none => none
    | some x =>
      match Hash.f b with
      | none => none
      | some y =>
        match decodePairs rest with
        | none => none
        | some r => some ((x * 16 + y) :: r)
  | _ => none

theorem Hash.f_le (b v : Nat) (h : Hash.f b = some v) : v < 16 := by
  unfold Hash.f at h
  by_cases hd : isAsciiDigit b
  · simp only [if_pos hd, Option.some.injEq] at h
    simp only [isAsciiDigit, Bool.and_eq_true, decide_eq_true_eq] at hd
    omega
  · rw [if_neg hd] at h
    by_cases hx : isAsciiHexdigit b
    · rw [if_pos hx] at h
      simp only [Option.some.injEq] at h
      simp only [isAsciiHexdigit, isAsciiDigit, Bool.or_eq_true, Bool.and_eq_true,
        decide_eq_true_eq] at hx
      simp only [isAsciiDigit, Bool.and_eq_true, decide_eq_true_eq, not_and] at hd
      rcases hx with (hx | hx) | hx <;> omega
    · rw [if_neg hx] at h
      exact Option.noConfusion h

theorem decodePairs_length :
    ∀ (s l : List Nat), decodePairs s = some l → 2 * l.length = s.length := by
  intro s
  induction s using decodePairs.induct with
  | case1 =>
    intro l h
    simp only [decodePairs, Option.some.injEq] at h
    subst h
    simp
  | case2 a b rest hfa =>
    intro l h
    simp [decodePairs, hfa] at h
  | case3 a b rest x hfa hfb =>
    intro l h
    simp [decodePairs, hfa, hfb] at h
  | case4 a b rest x hfa y hfb hrest ih =>
    intro l h
    simp [decodePairs, hfa, hfb, hrest] at h
  | case5 a b rest x hfa y hfb r hrest ih =>
    intro l h
    simp only [decodePairs, hfa, hfb, hrest, Option.some.injEq] at h
    subst h
    have := ih r hrest
    simp only [List.length_cons]
    omega
  | case6 t h1 h2 =>
    intro l h
    match t, h with
    | [], h => exact absurd rfl (h1 : ¬ _)
    | [a], h => simp [decodePairs] at h
    | a :: b :: rest, h => exact absurd rfl ((h2 a b rest) : ¬ _)

theorem decodePairs_lt :
    ∀ (s l : List Nat), decodePairs s = some l → ∀ y ∈ l, y < 256 := by
  intro s
  induction s using decodePairs.induct with
  | case1 =>
    intro l h
    simp only [decodePairs, Option.some.injEq] at h
    subst h
    simp
  | case2 a b rest hfa =>
    intro l h
    simp [decodePairs, hfa] at h
  | case3 a b rest x hfa hfb =>
    intro l h
    simp [decodePairs, hfa, hfb] at h
  | case4 a b rest x hfa y hfb hrest ih =>
    intro l h
    simp [decodePairs, hfa, hfb, hrest] at h
  | case5 a b rest x hfa y hfb r hrest ih =>
    intro l h
    simp only [decodePairs, hfa, hfb, hrest, Option.some.injEq] at h
    subst h
    intro z hz
    simp only [List.mem_cons] at hz
    rcases hz with hz | hz
    · subst hz
      have hx := Hash.f_le a x hfa
      have hy := Hash.f_le b y hfb
      omega
    · exact ih r hrest z hz
  | case6 t h1 h2 =>
    intro l h
    match t, h with
    | [], h => exact absurd rfl (h1 : ¬ _)
    | [a], h => simp [decodePairs] at h
    | a :: b :: rest, h => exact absurd rfl ((h2 a b rest) : ¬ _)

/-- `Hash::from_hash_str` on the string's bytes: requires exactly 64 bytes,
decodes hex-digit pairs, rejects anything else. -/
def Hash.from_hash_str (s : List Nat) : Option Hash :=
  if h64 : s.length = 64 then
    match hd : decodePairs s with
    | some l =>
      some ⟨l, by
        have hl := decodePairs_length s l hd
        constructor
        · omega
        · exact decodePairs_lt s l hd⟩
    | none => none
  else none

/-- One byte printed as two lowercase hex digits: the digit values of
`{x:02x}` in the `Display` impl. -/
def hexChar (n : Nat) : Nat := if n < 10 then 48 + n else 87 + n

/-- The `Display` impl of `Hash` as the ASCII bytes it prints: each byte as
two lowercase hex digits. -/
def bytesToHex : List Nat → List Nat
  | [] => []
  | x :: rest => hexChar (x / 16) :: hexChar (x % 16) :: bytesToHex rest

/-- The hex rendering of a `Hash` (its `Display` output as ASCII bytes). -/
def Hash.displayBytes (h : Hash) : List Nat := bytesToHex h.val

/-- A byte that prints a lowercase hex digit: `0`..`9` or `a`..`f`. -/
def isLowerHexDigit (b : Nat) : Bool := (48 ≤ b && b ≤ 57) || (97 ≤ b && b ≤ 102)

theorem Hash.f_hexChar (d : Nat) (hd : d < 16) : Hash.f (hexChar d) = some d := by
  have hfin : ∀ i : Fin 16, Hash.f (hexChar i.val) = some i.val := by decide
  exact hfin ⟨d, hd⟩

theorem bytesToHex_length (l : List Nat) : (bytesToHex l).length = 2 * l.length := by
  induction l with
  | nil => simp [bytesToHex]
  | cons x rest ih =>
    simp only [bytesToHex, List.length_cons, ih]
    omega

theorem decodePairs_bytesToHex (l : List Nat) (hl : ∀ x ∈ l, x < 256) :
    decodePairs (bytesToHex l) = some l := by
  induction l with
  | nil => simp [bytesToHex, decodePairs]
  | cons x rest ih =>
    have hx : x < 256 := hl x (List.mem_cons_self x rest)
    have hdiv : x / 16 < 16 := by omega
    have hmod : x % 16 < 16 := Nat.mod_lt _ (by decide)
    have hrest : decodePairs (bytesToHex rest) = some rest :=
      ih (fun y hy => hl y (List.mem_cons_of_mem x hy))
    simp only [bytesToHex, decodePairs, Hash.f_hexChar _ hdiv, Hash.f_hexChar _ hmod,
      hrest, Option.some.injEq, List.cons.injEq]
    constructor
    · have := Nat.div_add_mod x 16
      omega
    · trivial

theorem hash_displayBytes_roundtrip (h : Hash) :
    Hash.from_hash_str (Hash.displayBytes h) = some h := by
  obtain ⟨l, hlen, hlt⟩ := h
  have h64 : (bytesToHex l).length = 64 := by
    rw [bytesToHex_length, hlen]
  unfold Hash.from_hash_str Hash.displayBytes
  rw [dif_pos h64]
  have hdec : decodePairs (bytesToHex l) = some l := decodePairs_bytesToHex l hlt
  split
  · rename_i l2 hl2
    rw [hdec] at hl2
    cases hl2
    rfl
  · rename_i hl2
    rw [hdec] at hl2
    exact Option.noConfusion hl2

theorem Hash.f_isSome (b : Nat) : (Hash.f b).isSome = isAsciiHexdigit b := by
  unfold Hash.f
  by_cases hd : isAsciiDigit b
  · simp [hd, isAsciiHexdigit]
  · by_cases hx : isAsciiHexdigit b
    · simp [hd, hx]
    · simp [hd, hx]

theorem decodePairs_isSome :
    ∀ s : List Nat, s.length % 2 = 0 →
      (decodePairs s).isSome = s.all isAsciiHexdigit := by
  intro s
  induction s using decodePairs.induct with
  | case1 => intro _; simp [decodePairs]
  | case2 a b rest hfa =>
    intro _
    have := Hash.f_isSome a
    rw [hfa] at this
    simp only [decodePairs, hfa, Option.isSome_none, List.all_cons, ← this]
    simp
  | case3 a b rest x hfa hfb =>
    intro _
    have ha := Hash.f_isSome a
    rw [hfa] at ha
    have hb := Hash.f_isSome b
    rw [hfb] at hb
    simp only [decodePairs, hfa, hfb, Option.isSome_none, List.all_cons, ← ha, ← hb]
    simp
  | case4 a b rest x hfa y hfb hrest ih =>
    intro hev
    have ha := Hash.f_isSome a
    rw [hfa] at ha
    have hb := Hash.f_isSome b
    rw [hfb] at hb
    have hev2 : rest.length % 2 = 0 := by
      simp only [List.length_cons] at hev
      omega
    have := ih hev2
    rw [hrest] at this
    simp only [decodePairs, hfa, hfb, hrest, Option.isSome_none, List.all_cons,
      ← ha, ← hb, ← this]
    simp
  | case5 a b rest x hfa y hfb r hrest ih =>
    intro hev
    have ha := Hash.f_isSome a
    rw [hfa] at ha
    have hb := Hash.f_isSome b
    rw [hfb] at hb
    have hev2 : rest.length % 2 = 0 := by
      simp only [List.length_cons] at hev
      omega
    have := ih hev2
    rw [hrest] at this
    simp only [decodePairs, hfa, hfb, hrest, List.all_cons, ← ha, ← hb, ← this]
    simp
  | case6 t h1 h2 =>
    intro hev
    match t, hev with
    | [], _ => exact absurd rfl (h1 : ¬ _)
    | [a], hev => simp at hev
    | a :: b :: rest, _ => exact absurd rfl ((h2 a b rest) : ¬ _)

theorem from_hash_str_isSome (s : List Nat) :
    (Hash.from_hash_str s).isSome = true ↔
      s.length = 64 ∧ s.all isAsciiHexdigit = true := by
  unfold Hash.from_hash_str
  by_cases h64 : s.length = 64
  · rw [dif_pos h64]
    have hev : s.length % 2 = 0 := by omega
    have hiff := decodePairs_isSome s hev
    constructor
    · intro hs
      refine ⟨h64, ?_⟩
      rw [← hiff]
      split at hs
      · rename_i l2 hl2
        rw [hl2]
        rfl
      · simp at hs
    · intro hs
      rw [← hiff] at hs
      split
      · rfl
      · rename_i hl2
        rw [hl2] at hs
        simp at hs
  · rw [dif_neg h64]
    simp only [Option.isSome_none, Bool.false_eq_true, false_iff, not_and]
    intro hc
    exact absurd hc h64

theorem hexChar_lower (d : Nat) (hd : d < 16) : isLowerHexDigit (hexChar d) = true := by
  unfold hexChar isLowerHexDigit
  by_cases h10 : d < 10
  · rw [if_pos h10]
    simp only [Bool.or_eq_true, Bool.and_eq_true, decide_eq_true_eq]
    left
    omega
  · rw [if_neg h10]
    simp only [Bool.or_eq_true, Bool.and_eq_true, decide_eq_true_eq]
    right
    omega

theorem bytesToHex_lower (l : List Nat) (hl : ∀ x ∈ l, x < 256) :
    (bytesToHex l).all isLowerHexDigit = true := by
  induction l with
  | nil => simp [bytesToHex]
  | cons x rest ih =>
    have hx : x < 256 := hl x (List.mem_cons_self x rest)
    simp only [bytesToHex, List.all_cons, Bool.and_eq_true]
    refine ⟨hexChar_lower _ (by omega), hexChar_lower _ (Nat.mod_lt _ (by decide)), ?_⟩
    exact ih (fun y hy => hl y (List.mem_cons_of_mem x hy))

/-! ### Strings

Rust's `str::trim_start().trim_end()` and `str::as_bytes`. `trim_start` and
`trim_end` strip characters with the Unicode `White_Space` property
(`char::is_whitespace`), embedded below by enumerating that property's
code points; the trimming structure (drop from the front, then from the
back) mirrors the source. -/

/-- Rust `char::is_whitespace`: true exactly for the Unicode `White_Space`
code points (tab, LF, VT, FF, CR, space, NEL, NBSP, ogham space mark, the
U+2000..U+200A spaces, line and paragraph separators, narrow NBSP, medium
mathematical space, ideographic space). -/
def isRustWhitespace (c : Char) : Bool :=
  c.toNat = 0x09 || c.toNat = 0x0A || c.toNat = 0x0B || c.toNat = 0x0C ||
  c.toNat = 0x0D || c.toNat = 0x20 || c.toNat = 0x85 || c.toNat = 0xA0 ||
  c.toNat = 0x1680 || (0x2000 ≤ c.toNat && c.toNat ≤ 0x200A) ||
  c.toNat = 0x2028 || c.toNat = 0x2029 || c.toNat = 0x202F ||
  c.toNat = 0x205F || c.toNat = 0x3000

/-- Drop whitespace from both ends of a character list. -/
def trimChars (l : List Char) : List Char :=
  ((l.dropWhile isRustWhitespace).reverse.dropWhile isRustWhitespace).reverse

/-- Rust `content.trim_start().trim_end()`. -/
def rustTrim (s : String) : String := String.mk (trimChars s.data)

/-- Rust `str::as_bytes`: the UTF-8 bytes of a string as naturals. -/
def strBytes (s : String) : List Nat := s.toUTF8.toList.map (fun b => b.toNat)

/-! ### Data records and `TomlDataRepository`
(`infrastructure/data_repository/toml_data_repository.rs`)

The repository holds `map: HashMap<String, Data>` and a backing file.
`update_map` mutates the in-memory map and captures the prior entry as a
`RestoreInfo`; `update`/`update_multiple` then run `save` and on an I/O
error re-install the captured entries via `restore` and return the error.
The save outcome is the `saveOk` argument (the file write is I/O); an
`Except.error ()` result models the returned `std::io::Error`. -/

/-- A per-target record, `domain::models::Data`. -/
structure Data where
  hash : Option Hash
  last_updated : Option Nat
  last_checked : Nat
deriving DecidableEq

/-- The in-memory map of `TomlDataRepository`. -/
abbrev DataMap := List (String × Data)

/-- The captured prior entry of one key (`struct RestoreInfo`). -/
structure RestoreInfo where
  key : String
  data : Option Data

namespace TomlDataRepository

/-- The record computation inside `update_map` (lines 49-83): clone the
existing record or start a fresh one, always set `last_checked := now`;
with empty trimmed content stop there; otherwise digest the content and
advance `last_updated` exactly when the digest differs from the stored
one, then store the digest. -/
def stepData (old : Option Data) (content : String) (now : Nat) : Data :=
  let data := old.getD { hash := none, last_updated := none, last_checked := now }
  let data := { data with last_checked := now }
  let content := rustTrim content
  if content.length ≤ 0 then
    data
  else
    let hash := Hash.new (strBytes content)
    let data :=
      if data.hash ≠ some hash then { data with last_updated := some now }
      else data
    { data with hash := some hash }

/-- `TomlDataRepository::update_map`: write the stepped record into the map
and capture the replaced entry. -/
def update_map (m : DataMap) (key content : String) (now : Nat) :
    DataMap × RestoreInfo :=
  (mapInsert m key (stepData (mapGet m key) content now), ⟨key, mapGet m key⟩)

/-- `TomlDataRepository::restore`: re-install a captured entry (re-insert a
prior value, remove a fresh insert). -/
def restore (m : DataMap) (ri : RestoreInfo) : DataMap :=
  match ri.data with
  | some d => mapInsert m ri.key d
  | none => mapRemove m ri.key

/-- `TomlDataRepository::update`: mutate, save, and on save failure restore
and return the error. -/
def update (m : DataMap) (key content : String) (now : Nat) (saveOk : Bool) :
    DataMap × Except Unit Unit :=
  let step := update_map m key content now
  if saveOk then (step.1, Except.ok ())
  else (restore step.1 step.2, Except.error ())

/-- The batch loop of `update_multiple`: apply `update_map` per entry,
collecting the `RestoreInfo`s in order. -/
def update_map_many (m : DataMap) (batch : List (String × String))
    (now : Nat) : DataMap × List RestoreInfo :=
  match batch with
  | [] => (m, [])
  | (k, c) :: rest =>
    let step := update_map m k c now
    let more := update_map_many step.1 rest now
    (more.1, step.2 :: more.2)

/-- The failure loop of `update_multiple`: restore every captured entry in
capture order. -/
def restore_many (m : DataMap) : List RestoreInfo → DataMap
  | [] => m
  | ri :: ris => restore_many (restore m ri) ris

/-- `TomlDataRepository::update_multiple`: batched updates, one save; on
save failure every entry of the batch is restored and the error returned. -/
def update_multiple (m : DataMap) (batch : List (String × String))
    (now : Nat) (saveOk : Bool) : DataMap × Except Unit Unit :=
  let step := update_map_many m batch now
  if saveOk then (step.1, Except.ok ())
  else (restore_many step.1 step.2, Except.error ())

end TomlDataRepository

/-! ### Config records and `TomlConfigRepository`
(`infrastructure/config_repository/toml_config_repository.rs`, with the
value types of `domain/models/mod.rs`) -/

/-- `domain::models::Mode`; `Default` is `full`. -/
inductive Mode where
  | simple
  | full
deriving DecidableEq

/-- The `Default` impl for `Mode`. -/
def Mode.default : Mode := Mode.full

/-- `domain::models::Config`: url and selector are stored verbatim. -/
structure Config where
  url : String
  selector : String
  mode : Mode
  wait_seconds : Option Nat
deriving DecidableEq

/-- The persisted form `TomlConfig`, whose `mode` field is optional. -/
structure TomlConfig where
  url : String
  selector : String
  mode : Option Mode
  wait_seconds : Option Nat
deriving DecidableEq

/-- `impl From<Config> for TomlConfig`. -/
def TomlConfig.fromConfig (c : Config) : TomlConfig :=
  { url := c.url, selector := c.selector, mode := some c.mode,
    wait_seconds := c.wait_seconds }

/-- `impl Into<Config> for TomlConfig`: `mode.unwrap_or_default()`. -/
def TomlConfig.intoConfig (t : TomlConfig) : Config :=
  { url := t.url, selector := t.selector, mode := t.mode.getD Mode.default,
    wait_seconds := t.wait_seconds }

/-- The serde-derived deserializer for `Mode`
(`#[serde(rename_all = "lowercase")]` over `Simple | Full`): the exact
strings `simple` and `full` parse; any other string is a deserialization
error that fails the whole load. -/
def parseModeStr (s : String) : Option Mode :=
  if s = "simple" then some Mode.simple
  else if s = "full" then some Mode.full
  else none

/-- Loading the `mode` field of one per-id table and converting it to a
`Config` mode: an absent field deserializes to `None` and
`unwrap_or_default()` turns it into `full`; a present field must parse as
a `Mode` or the load fails. -/
def loadEntryMode (rawMode : Option String) : Option Mode :=
  match rawMode with
  | none => some Mode.default
  | some s => (parseModeStr s).map (fun m => (some m).getD Mode.default)

/-- The in-memory cache of `TomlConfigRepository` (the proxy's cache). -/
abbrev ConfigMap := List (String × TomlConfig)

/-- The captured prior entry of one config key. -/
structure ConfigRestoreInfo where
  id : String
  data : Option TomlConfig

namespace TomlConfigRepository

/-- `TomlConfigRepository::update_map`: insert the converted config and
capture the replaced entry. -/
def update_map (m : ConfigMap) (id : String) (config : Config) :
    ConfigMap × ConfigRestoreInfo :=
  (mapInsert m id (TomlConfig.fromConfig config), ⟨id, mapGet m id⟩)

/-- `TomlConfigRepository::delete_map`: remove the entry and capture it. -/
def delete_map (m : ConfigMap) (id : String) : ConfigMap × ConfigRestoreInfo :=
  (mapRemove m id, ⟨id, mapGet m id⟩)

/-- `TomlConfigRepository::restore`. -/
def restore (m : ConfigMap) (ri : ConfigRestoreInfo) : ConfigMap :=
  match ri.data with
  | some d => mapInsert m ri.id d
  | none => mapRemove m ri.id

/-- `TomlConfigRepository::update`: upsert, save, restore on save failure. -/
def update (m : ConfigMap) (id : String) (config : Config) (saveOk : Bool) :
    ConfigMap × Except Unit Unit :=
  let step := update_map m id config
  if saveOk then (step.1, Except.ok ())
  else (restore step.1 step.2, Except.error ())

/-- `TomlConfigRepository::delete`: remove, save, restore on save failure;
on success the prior value is returned. -/
def delete (m : ConfigMap) (id : String) (saveOk : Bool) :
    ConfigMap × Except Unit (Option Config) :=
  let step := delete_map m id
  if saveOk then (step.1, Except.ok (step.2.data.map TomlConfig.intoConfig))
  else (restore step.1 step.2, Except.error ())

end TomlConfigRepository

/-! ### The engine's per-tick fan-out (`application/app.rs`, lines 84-121)

Within a tick the engine copies the configs into `rem`, sets `retry := 3`,
and loops: while `rem` is non-empty and retries remain it starts
`poll_multiple(rem)` and consumes the arriving `(id, result)` events. The
poller and the deadline are external I/O, so the events a round delivers
are an oracle parameter (`oracle r` is the event list of the round started
with `retry = r`); `rem` is modelled by its key list, and the data-store
handle by a function `upd` on the embedded `DataMap` returning the new map
and an error flag (the engine only tests `is_err`). -/

/-- One item of the poll stream: success with the extracted text, or a
poller error (its payload does not matter to the engine). -/
inductive PollResult where
  | ok (content : String)
  | err
deriving DecidableEq

/-- A data-store handle as the engine sees it: an update function from map,
id and digest to the new map and an error flag. -/
abbrev UpdFun := DataMap → String → Hash → DataMap × Bool

/-- The body of the engine's event loop (lines 91-118) for one `(id,
result)` event: a poller error logs and leaves `rem` unchanged; an empty
trimmed result logs and leaves `rem` unchanged (the `continue` skips the
removal); otherwise the digest is written through the data store — a store
error only logs — and `id` is removed from `rem`. -/
def processEvent (upd : UpdFun) (st : List String × DataMap)
    (ev : String × PollResult) : List String × DataMap :=
  match ev.2 with
  | PollResult.err => st
  | PollResult.ok content =>
    let content := rustTrim content
    if content.length ≤ 0 then st
    else
      let hash := Hash.new (strBytes content)
      let res := upd st.2 ev.1 hash
      (st.1.erase ev.1, res.1)

/-- One retry round: consume the round's events in arrival order. -/
def processRound (upd : UpdFun) (st : List String × DataMap)
    (evs : List (String × PollResult)) : List String × DataMap :=
  evs.foldl (processEvent upd) st

/-- The fan-out while loop (`while 0 < rem.len() && 0 < retry`): each
iteration starts one `poll_multiple` over the current `rem` (recorded in
the returned list of polled key sets) and processes that round's events,
then decrements `retry`. -/
def fanOutLoop (upd : UpdFun) (oracle : Nat → List (String × PollResult)) :
    Nat → List String × DataMap → (List String × DataMap) × List (List String)
  | 0, st => (st, [])
  | retry + 1, st =>
    if st.1.isEmpty then (st, [])
    else
      let st2 := processRound upd st (oracle (retry + 1))
      let more := fanOutLoop upd oracle retry st2
      (more.1, st.1 :: more.2)

/-! ### Restore lemmas for the data store -/

namespace TomlDataRepository

theorem restore_nodup (m : DataMap) (ri : RestoreInfo) (hm : mapNodup m) :
    mapNodup (restore m ri) := by
  unfold restore
  match ri with
  | ⟨k, some d⟩ => exact mapNodup_insert m k d hm
  | ⟨k, none⟩ => exact mapNodup_remove m k hm

theorem update_map_many_nodup (batch : List (String × String)) :
    ∀ (m : DataMap) (now : Nat), mapNodup m →
      mapNodup (update_map_many m batch now).1 := by
  induction batch with
  | nil => intro m now hm; exact hm
  | cons kc rest ih =>
    intro m now hm
    obtain ⟨k, c⟩ := kc
    exact ih _ now (mapNodup_insert m k _ hm)

theorem update_map_many_frame (batch : List (String × String)) :
    ∀ (m : DataMap) (now : Nat) (q : String), q ∉ batch.map Prod.fst →
      mapGet (update_map_many m batch now).1 q = mapGet m q := by
  induction batch with
  | nil => intro m now q _; rfl
  | cons kc rest ih =>
    intro m now q hq
    obtain ⟨k, c⟩ := kc
    simp only [List.map_cons, List.mem_cons, not_or] at hq
    rw [update_map_many]
    rw [ih _ now q (by simpa using hq.2)]
    exact mapGet_insert_ne m k q _ hq.1

theorem update_map_many_snd (batch : List (String × String)) :
    ∀ (m : DataMap) (now : Nat), (batch.map Prod.fst).Nodup →
      (update_map_many m batch now).2 =
        batch.map (fun kc => (⟨kc.1, mapGet m kc.1⟩ : RestoreInfo)) := by
  induction batch with
  | nil => intro m now _; rfl
  | cons kc rest ih =>
    intro m now hb
    obtain ⟨k, c⟩ := kc
    simp only [List.map_cons, List.nodup_cons] at hb
    rw [update_map_many, List.map_cons]
    simp only [update_map, List.cons.injEq]
    constructor
    · trivial
    · rw [ih _ now hb.2]
      apply List.map_congr_left
      intro kc2 hkc2
      have hne : kc2.1 ≠ k := by
        intro hc
        exact hb.1 (hc ▸ List.mem_map_of_mem Prod.fst hkc2)
      rw [mapGet_insert_ne m k kc2.1 _ hne]

theorem get_restore_many (ris : List RestoreInfo) :
    ∀ (m : DataMap) (q : String), mapNodup m → (ris.map RestoreInfo.key).Nodup →
      mapGet (restore_many m ris) q =
        match ris.find? (fun ri => ri.key == q) with
        | some ri => ri.data
        | none => mapGet m q := by
  induction ris with
  | nil => intro m q _ _; rfl
  | cons ri ris ih =>
    intro m q hm hr
    simp only [List.map_cons, List.nodup_cons] at hr
    rw [restore_many, ih (restore m ri) q (restore_nodup m ri hm) hr.2]
    by_cases hq : ri.key = q
    · have hnone : ris.find? (fun r => r.key == q) = none := by
        rw [List.find?_eq_none]
        intro r hrm
        simp only [beq_iff_eq]
        intro hc
        exact hr.1 (by rw [← hq] at hc; exact hc ▸ List.mem_map_of_mem RestoreInfo.key hrm)
      rw [hnone]
      have hhead : (ri :: ris).find? (fun r => r.key == q) = some ri := by
        simp [List.find?, hq]
      rw [hhead]
      subst hq
      unfold restore
      match ri with
      | ⟨k, some d⟩ => exact mapGet_insert_self m k d
      | ⟨k, none⟩ => exact mapGet_remove_self m k hm
    · have hbeq : (ri.key == q) = false := by
        simp [hq]
      have hhead : (ri :: ris).find? (fun r => r.key == q) =
          ris.find? (fun r => r.key == q) := by
        simp [List.find?, hbeq]
      rw [hhead]
      cases hfind : ris.find? (fun r => r.key == q) with
      | some r => rfl
      | none =>
        have : mapGet (restore m ri) q = mapGet m q := by
          unfold restore
          match ri, hq with
          | ⟨k, some d⟩, hq => exact mapGet_insert_ne m k q d (fun hc => hq hc.symm)
          | ⟨k, none⟩, hq => exact mapGet_remove_ne m k q (fun hc => hq hc.symm)
        rw [this]

theorem find_captured (batch : List (String × String)) (g : String → Option Data)
    (q : String) :
    (batch.map (fun kc => (⟨kc.1, g kc.1⟩ : RestoreInfo))).find?
        (fun ri => ri.key == q) =
      if q ∈ batch.map Prod.fst then some ⟨q, g q⟩ else none := by
  induction batch with
  | nil => simp
  | cons kc rest ih =>
    obtain ⟨k, c⟩ := kc
    by_cases hk : k = q
    · subst hk
      simp [List.find?, ih]
    · simp only [List.map_cons, List.find?]
      have : ((⟨k, g k⟩ : RestoreInfo).key == q) = false := by
        simp [hk]
      rw [this, ih]
      simp only [List.map_cons, List.mem_cons]
      by_cases hq : q ∈ rest.map Prod.fst
      · rw [if_pos hq, if_pos (Or.inr hq)]
      · rw [if_neg hq, if_neg ?_]
        intro hc
        rcases hc with hc | hc
        · exact hk hc.symm
        · exact hq hc

theorem update_multiple_fail_get (m : DataMap) (batch : List (String × String))
    (now : Nat) (hm : mapNodup m) (hb : (batch.map Prod.fst).Nodup)
    (q : String) :
    mapGet (update_multiple m batch now false).1 q = mapGet m q := by
  unfold update_multiple
  simp only [Bool.false_eq_true, if_false]
  have hsnd := update_map_many_snd batch m now hb
  have hkeys : ((update_map_many m batch now).2.map RestoreInfo.key).Nodup := by
    rw [hsnd]
    simpa [Function.comp] using hb
  rw [get_restore_many _ _ q (update_map_many_nodup batch m now hm) hkeys, hsnd,
    find_captured batch (fun k => mapGet m k) q]
  by_cases hq : q ∈ batch.map Prod.fst
  · rw [if_pos hq]
  · rw [if_neg hq]
    exact update_map_many_frame batch m now q hq

theorem update_fail_map (m : DataMap) (k c : String) (now : Nat) :
    (update m k c now false).1 = m := by
  unfold update update_map restore
  simp only [Bool.false_eq_true, if_false]
  cases hget : mapGet m k with
  | some d => exact mapInsert_mapInsert_cancel m k _ d hget
  | none => exact mapRemove_mapInsert_cancel m k _ hget

end TomlDataRepository

namespace TomlConfigRepository

theorem config_update_fail_map (m : ConfigMap) (id : String) (config : Config) :
    (update m id config false).1 = m := by
  unfold update update_map restore
  simp only [Bool.false_eq_true, if_false]
  cases hget : mapGet m id with
  | some d => exact mapInsert_mapInsert_cancel m id _ d hget
  | none => exact mapRemove_mapInsert_cancel m id _ hget

theorem delete_fail_get (m : ConfigMap) (id : String) (q : String) :
    mapGet (delete m id false).1 q = mapGet m q := by
  unfold delete delete_map restore
  simp only [Bool.false_eq_true, if_false]
  cases hget : mapGet m id with
  | some d =>
    by_cases hq : q = id
    · subst hq
      rw [mapGet_insert_self, hget]
    · rw [mapGet_insert_ne _ _ _ _ hq, mapGet_remove_ne _ _ _ hq]
  | none =>
    rw [mapRemove_of_get_none m id hget, mapRemove_of_get_none m id hget]

end TomlConfigRepository

/-! ### Engine lemmas -/

theorem processEvent_get (upd : UpdFun)
    (hframe : ∀ s k hs q, q ≠ k → mapGet (upd s k hs).1 q = mapGet s q)
    (t : String) (st : List String × DataMap) (ev : String × PollResult)
    (hev : ∀ c, ev = (t, PollResult.ok c) → (rustTrim c).length = 0) :
    mapGet (processEvent upd st ev).2 t = mapGet st.2 t := by
  obtain ⟨id, res⟩ := ev
  cases res with
  | err => rfl
  | ok content =>
    simp only [processEvent]
    by_cases hlen : (rustTrim content).length ≤ 0
    · rw [if_pos hlen]
    · rw [if_neg hlen]
      by_cases hid : t = id
      · subst hid
        exact absurd (hev content rfl) (by omega)
      · exact hframe st.2 id _ t hid

theorem processRound_get (upd : UpdFun)
    (hframe : ∀ s k hs q, q ≠ k → mapGet (upd s k hs).1 q = mapGet s q)
    (t : String) :
    ∀ (evs : List (String × PollResult)) (st : List String × DataMap),
      (∀ c, (t, PollResult.ok c) ∈ evs → (rustTrim c).length = 0) →
      mapGet (processRound upd st evs).2 t = mapGet st.2 t := by
  intro evs
  induction evs with
  | nil => intro st _; rfl
  | cons e evs ih =>
    intro st hws
    have hstep : processRound upd st (e :: evs) =
        processRound upd (processEvent upd st e) evs := by
      simp [processRound]
    rw [hstep, ih (processEvent upd st e)
      (fun c hc => hws c (List.mem_cons_of_mem e hc))]
    exact processEvent_get upd hframe t st e
      (fun c hc => hws c (hc ▸ List.mem_cons_self e evs))

theorem fanOutLoop_get (upd : UpdFun)
    (hframe : ∀ s k hs q, q ≠ k → mapGet (upd s k hs).1 q = mapGet s q)
    (oracle : Nat → List (String × PollResult)) (t : String)
    (hws : ∀ r c, (t, PollResult.ok c) ∈ oracle r → (rustTrim c).length = 0) :
    ∀ (retry : Nat) (st : List String × DataMap),
      mapGet (fanOutLoop upd oracle retry st).1.2 t = mapGet st.2 t := by
  intro retry
  induction retry with
  | zero => intro st; rfl
  | succ n ih =>
    intro st
    rw [fanOutLoop]
    by_cases he : st.1.isEmpty
    · rw [if_pos he]
    · rw [if_neg he]
      simp only
      rw [ih (processRound upd st (oracle (n + 1)))]
      exact processRound_get upd hframe t (oracle (n + 1)) st
        (fun c hc => hws (n + 1) c hc)

theorem processEvent_mem (upd : UpdFun) (t : String)
    (st : List String × DataMap) (ev : String × PollResult)
    (hev : ev.1 = t → ev.2 = PollResult.err) (hmem : t ∈ st.1) :
    t ∈ (processEvent upd st ev).1 := by
  obtain ⟨id, res⟩ := ev
  cases res with
  | err => exact hmem
  | ok content =>
    simp only [processEvent]
    by_cases hlen : (rustTrim content).length ≤ 0
    · rw [if_pos hlen]
      exact hmem
    · rw [if_neg hlen]
      have hid : t ≠ id := by
        intro hc
        exact PollResult.noConfusion (hev (by simp [hc]))
      exact (List.mem_erase_of_ne hid).mpr hmem

theorem processRound_mem (upd : UpdFun) (t : String) :
    ∀ (evs : List (String × PollResult)) (st : List String × DataMap),
      (∀ e ∈ evs, e.1 = t → e.2 = PollResult.err) → t ∈ st.1 →
      t ∈ (processRound upd st evs).1 := by
  intro evs
  induction evs with
  | nil => intro st _ hmem; exact hmem
  | cons e evs ih =>
    intro st herr hmem
    have hstep : processRound upd st (e :: evs) =
        processRound upd (processEvent upd st e) evs := by
      simp [processRound]
    rw [hstep]
    exact ih (processEvent upd st e)
      (fun e2 he2 => herr e2 (List.mem_cons_of_mem e he2))
      (processEvent_mem upd t st e (herr e (List.mem_cons_self e evs)) hmem)

theorem fanOutLoop_rounds (upd : UpdFun)
    (oracle : Nat → List (String × PollResult)) (t : String)
    (herr : ∀ r e, e ∈ oracle r → e.1 = t → e.2 = PollResult.err) :
    ∀ (retry : Nat) (st : List String × DataMap), t ∈ st.1 →
      (fanOutLoop upd oracle retry st).2.length = retry ∧
      ∀ l ∈ (fanOutLoop upd oracle retry st).2, t ∈ l := by
  intro retry
  induction retry with
  | zero =>
    intro st hmem
    exact ⟨rfl, by intro l hl; simp [fanOutLoop] at hl⟩
  | succ n ih =>
    intro st hmem
    have hne : st.1.isEmpty = false := by
      cases hst : st.1 with
      | nil => rw [hst] at hmem; simp at hmem
      | cons a l => simp
    rw [fanOutLoop, hne]
    simp only [Bool.false_eq_true, if_false]
    have hmem2 : t ∈ (processRound upd st (oracle (n + 1))).1 :=
      processRound_mem upd t (oracle (n + 1)) st
        (fun e he => herr (n + 1) e he) hmem
    obtain ⟨hlen, hall⟩ := ih (processRound upd st (oracle (n + 1))) hmem2
    constructor
    · simp only [List.length_cons, hlen]
    · intro l hl
      simp only [List.mem_cons] at hl
      rcases hl with hl | hl
      · subst hl
        exact hmem
      · exact hall l hl

/-! ### The per-id record evolution for the invariant claim -/

/-- Decides whether a record satisfies `last_updated ≤ last_checked`
whenever `last_updated` is set. -/
def luLeLc (d : Data) : Bool :=
  d.last_updated.all (fun u => decide (u ≤ d.last_checked))

/-- Fold a sequence of `(content, now)` update calls for one id over its
record, starting from an absent record: exactly the per-key effect of
successive `TomlDataRepository::update_map` calls. -/
def runCalls (od : Option Data) (calls : List (String × Nat)) : Option Data :=
  calls.foldl (fun od call => some (TomlDataRepository.stepData od call.1 call.2)) od

theorem stepData_last_checked (od : Option Data) (c : String) (t : Nat) :
    (TomlDataRepository.stepData od c t).last_checked = t := by
  unfold TomlDataRepository.stepData
  by_cases hlen : (rustTrim c).length ≤ 0
  · simp [hlen]
  · simp only [hlen, if_false]
    split <;> simp

theorem stepData_luLeLc (od : Option Data) (c : String) (t : Nat)
    (hd : ∀ x, od = some x → luLeLc x = true ∧ x.last_checked ≤ t) :
    luLeLc (TomlDataRepository.stepData od c t) = true := by
  have hbase : ∀ (d1 : Data), d1.last_checked = t →
      (∀ u, d1.last_updated = some u → u ≤ t) → luLeLc d1 = true := by
    intro d1 hlc hlu
    unfold luLeLc
    cases hx : d1.last_updated with
    | none => simp
    | some u =>
      simp only [Option.all_some, decide_eq_true_eq, hlc]
      exact hlu u hx
  have hlu0 : ∀ u,
      (od.getD { hash := none, last_updated := none, last_checked := t
        }).last_updated = some u → u ≤ t := by
    intro u hu
    cases od with
    | none => simp at hu
    | some x =>
      obtain ⟨hlu, hlc⟩ := hd x rfl
      simp only [Option.getD_some] at hu
      unfold luLeLc at hlu
      rw [hu] at hlu
      simp only [Option.all_some, decide_eq_true_eq] at hlu
      omega
  unfold TomlDataRepository.stepData
  by_cases hlen : (rustTrim c).length ≤ 0
  · simp only [hlen, if_true]
    exact hbase _ rfl (fun u hu => hlu0 u hu)
  · simp only [hlen, if_false]
    split
    · exact hbase _ rfl (fun u hu => by
        simp only [Option.some.injEq] at hu
        omega)
    · exact hbase _ rfl (fun u hu => hlu0 u hu)

theorem runCalls_inv :
    ∀ (calls : List (String × Nat)) (od : Option Data),
      (∀ x, od = some x → luLeLc x = true) →
      (∀ x, od = some x → ∀ c0 ∈ calls.head?, x.last_checked ≤ c0.2) →
      List.Chain' (fun a b => a.2 ≤ b.2) calls →
      ∀ y, runCalls od calls = some y → luLeLc y = true := by
  intro calls
  induction calls with
  | nil =>
    intro od h1 _ _ y hy
    exact h1 y hy
  | cons call rest ih =>
    intro od h1 h2 hchain y hy
    obtain ⟨c, t⟩ := call
    rw [List.chain'_cons'] at hchain
    have hstep : runCalls od ((c, t) :: rest) =
        runCalls (some (TomlDataRepository.stepData od c t)) rest := by
      simp [runCalls]
    rw [hstep] at hy
    refine ih (some (TomlDataRepository.stepData od c t)) ?_ ?_ hchain.2 y hy
    · intro x hx
      cases hx
      exact stepData_luLeLc od c t
        (fun z hz => ⟨h1 z hz, h2 z hz (c, t) (by simp)⟩)
    · intro x hx c0 hc0
      cases hx
      rw [stepData_last_checked]
      exact hchain.1 c0 hc0

/-! ### Witness fixtures -/

/-- A store stub for witnesses: records the digest for the id and reports
success. -/
def okStore : UpdFun := fun s k hs =>
  (mapInsert s k { hash := some hs, last_updated := none, last_checked := 0 }, false)

/-- A store stub for witnesses whose save always fails. -/
def errStore : UpdFun := fun s _ _ => (s, true)

theorem stepData_empty (od : Option Data) (c : String) (t : Nat)
    (hc : (rustTrim c).length ≤ 0) :
    TomlDataRepository.stepData od c t =
      { hash := od.bind Data.hash, last_updated := od.bind Data.last_updated,
        last_checked := t } := by
  unfold TomlDataRepository.stepData
  simp only [hc, if_true]
  cases od <;> rfl

/-! ### The claims -/

/-- C1: the spec (and the `DataRepository` trait in
`domain/data_repository.rs`) promise that `update` returns `Some(ts)` iff
the prior stored hash was absent or different, `ts` being the new
`last_checked`. At the failing input — empty store, id `a`, content
`hello`, time `5`, successful save — the embedded
`TomlDataRepository::update` does advance `last_updated` to `5` (the prior
hash was absent, so the promised result would be `Some(5)`), yet its
result is plain `Ok(())`: the implementation's return type carries no
timestamp at all, contradicting the trait it claims to implement. -/
theorem c1_update_returns_no_timestamp :
    (TomlDataRepository.update [] "a" "hello" 5 true).2 = Except.ok () ∧
    (mapGet (TomlDataRepository.update [] "a" "hello" 5 true).1 "a").bind
        Data.last_updated = some 5 := by
  constructor
  · rfl
  · have hne : ¬ (rustTrim "hello").length ≤ 0 := by decide
    simp [TomlDataRepository.update, TomlDataRepository.update_map,
      TomlDataRepository.stepData, mapGet, mapInsert, hne]

/-- C2 (counterexample): in the engine's fan-out body the claim fails twice
at concrete inputs. With `rem = [a]`: an event whose result trims to
whitespace leaves `a` in `rem` (the `continue` skips the removal), though
the claim says `a` is removed; and an event whose data-store update errors
still removes `a` from `rem` (the removal is unconditional), though the
claim says `a` remains. -/
theorem c2_counterexample :
    (processEvent errStore (["a"], []) ("a", PollResult.ok " ")).1 = ["a"] ∧
    (processEvent errStore (["a"], []) ("a", PollResult.ok "x")).1 = [] := by
  constructor
  · rfl
  · rfl

/-- C2 (amended): for every event in the fan-out, a poller error leaves
`rem` and the store unchanged; a result that trims to empty leaves `rem`
and the store unchanged (so the id is retried, not removed); and a
non-empty result removes the id from `rem` unconditionally — also when the
data-store update reports an error — and threads the store through the
update. -/
theorem c2_per_event_rem_behavior (upd : UpdFun) (rem : List String)
    (store : DataMap) (id content : String) :
    processEvent upd (rem, store) (id, PollResult.err) = (rem, store) ∧
    ((rustTrim content).length = 0 →
      processEvent upd (rem, store) (id, PollResult.ok content) = (rem, store)) ∧
    (0 < (rustTrim content).length →
      processEvent upd (rem, store) (id, PollResult.ok content) =
        (rem.erase id,
         (upd store id (Hash.new (strBytes (rustTrim content)))).1)) := by
  refine ⟨rfl, ?_, ?_⟩
  · intro h
    simp [processEvent, h]
  · intro h
    have hne : ¬ (rustTrim content).length ≤ 0 := by omega
    simp [processEvent, hne]

theorem c2_witness :
    processEvent errStore (["b"], []) ("b", PollResult.err) = (["b"], []) :=
  (c2_per_event_rem_behavior errStore ["b"] [] "b" "x").1

/-- C3: when the persistence write fails, every mutating operation restores
the in-memory map to its pre-call contents and returns the persistence
error: the data store's `update` and `update_multiple` (the whole batch
rolled back entry by entry) and the config store's `update` and `delete`. -/
theorem c3_restore_on_failure :
    (∀ (m : DataMap) (k c : String) (now : Nat),
      (TomlDataRepository.update m k c now false).1 = m ∧
      (TomlDataRepository.update m k c now false).2 = Except.error ()) ∧
    (∀ (m : DataMap) (batch : List (String × String)) (now : Nat),
      mapNodup m → (batch.map Prod.fst).Nodup →
      (∀ q, mapGet (TomlDataRepository.update_multiple m batch now false).1 q =
        mapGet m q) ∧
      (TomlDataRepository.update_multiple m batch now false).2 =
        Except.error ()) ∧
    (∀ (m : ConfigMap) (id : String) (config : Config),
      (TomlConfigRepository.update m id config false).1 = m ∧
      (TomlConfigRepository.update m id config false).2 = Except.error ()) ∧
    (∀ (m : ConfigMap) (id : String),
      (∀ q, mapGet (TomlConfigRepository.delete m id false).1 q = mapGet m q) ∧
      (TomlConfigRepository.delete m id false).2 = Except.error ()) := by
  refine ⟨?_, ?_, ?_, ?_⟩
  · intro m k c now
    exact ⟨TomlDataRepository.update_fail_map m k c now, rfl⟩
  · intro m batch now hm hb
    exact ⟨fun q => TomlDataRepository.update_multiple_fail_get m batch now hm hb q,
      rfl⟩
  · intro m id config
    exact ⟨TomlConfigRepository.config_update_fail_map m id config, rfl⟩
  · intro m id
    exact ⟨fun q => TomlConfigRepository.delete_fail_get m id q, rfl⟩

theorem c3_witness :
    mapGet (TomlDataRepository.update_multiple [] [("a", "x")] 0 false).1 "a" =
      mapGet ([] : DataMap) "a" :=
  (c3_restore_on_failure.2.1 [] [("a", "x")] 0 (by simp [mapNodup, mapKeys])
    (by simp)).1 "a"

/-- C4: a record written only through the data store's update path,
starting from an absent record, satisfies `last_updated ≤ last_checked`
whenever `last_updated` is set, after every update call, provided the
calls observe non-decreasing current timestamps. -/
theorem c4_last_updated_le_last_checked (calls : List (String × Nat))
    (hmono : List.Chain' (fun a b => a.2 ≤ b.2) calls) :
    ∀ y, runCalls none calls = some y → luLeLc y = true :=
  runCalls_inv calls none (fun _ hx => Option.noConfusion hx)
    (fun _ hx => Option.noConfusion hx) hmono

theorem c4_witness :
    luLeLc { hash := none, last_updated := none, last_checked := 2 } = true :=
  c4_last_updated_le_last_checked [("", 1), (" ", 2)]
    (by simp [List.chain'_cons]) _ (by decide)

/-- C5: parsing the hex display of `Hash::new(b)` with
`Hash::from_hash_str` returns the same hash for every byte sequence;
`from_hash_str` succeeds exactly on inputs of 64 bytes that are all ASCII
hex digits (either case); and the display of any hash is exactly 64
lowercase hex characters. -/
theorem c5_hash_hex_round_trip :
    (∀ b : List Nat,
      Hash.from_hash_str (Hash.displayBytes (Hash.new b)) = some (Hash.new b)) ∧
    (∀ s : List Nat, (Hash.from_hash_str s).isSome = true ↔
      s.length = 64 ∧ s.all isAsciiHexdigit = true) ∧
    (∀ h : Hash, (Hash.displayBytes h).length = 64 ∧
      (Hash.displayBytes h).all isLowerHexDigit = true) := by
  refine ⟨fun b => hash_displayBytes_roundtrip (Hash.new b), from_hash_str_isSome, ?_⟩
  intro h
  constructor
  · rw [Hash.displayBytes, bytesToHex_length, h.prop.1]
  · exact bytesToHex_lower h.val h.prop.2

theorem c5_witness :
    (Hash.from_hash_str (List.replicate 64 48)).isSome = true :=
  (c5_hash_hex_round_trip.2.1 (List.replicate 64 48)).mpr ⟨by decide, by decide⟩

/-- C6: a target whose poll results within a tick all trim to whitespace
never has a data-store update performed for it, so the store's entry for
that target after the whole fan-out (any retry budget, any store with
per-key updates) equals its entry before. -/
theorem c6_whitespace_never_mutates (upd : UpdFun)
    (hframe : ∀ s k hs q, q ≠ k → mapGet (upd s k hs).1 q = mapGet s q)
    (oracle : Nat → List (String × PollResult)) (t : String)
    (hws : ∀ r c, (t, PollResult.ok c) ∈ oracle r → (rustTrim c).length = 0)
    (retry : Nat) (rem : List String) (store : DataMap) :
    mapGet (fanOutLoop upd oracle retry (rem, store)).1.2 t = mapGet store t :=
  fanOutLoop_get upd hframe oracle t hws retry (rem, store)

theorem c6_witness :
    mapGet (fanOutLoop okStore (fun _ => [("t", PollResult.ok " ")]) 3
      (["t"], [])).1.2 "t" = mapGet ([] : DataMap) "t" :=
  c6_whitespace_never_mutates okStore
    (fun s k hs q hq => mapGet_insert_ne s k q _ hq)
    (fun _ => [("t", PollResult.ok " ")]) "t"
    (fun _ c hc => by
      simp only [List.mem_singleton, Prod.mk.injEq, PollResult.ok.injEq] at hc
      rw [hc.2]
      decide)
    3 ["t"] []

/-- C7: a direct data-store `update` whose content trims to empty still
mutates the store: with a successful save it returns `Ok`, the record for
the id keeps its prior `hash` and `last_updated` (both `None` when no
record existed) while `last_checked` becomes the call's time, and no other
entry changes. -/
theorem c7_empty_content_still_checks (m : DataMap) (k c : String) (now : Nat)
    (hc : (rustTrim c).length = 0) :
    (TomlDataRepository.update m k c now true).2 = Except.ok () ∧
    mapGet (TomlDataRepository.update m k c now true).1 k =
      some { hash := (mapGet m k).bind Data.hash,
             last_updated := (mapGet m k).bind Data.last_updated,
             last_checked := now } ∧
    ∀ q, q ≠ k → mapGet (TomlDataRepository.update m k c now true).1 q =
      mapGet m q := by
  refine ⟨rfl, ?_, ?_⟩
  · show mapGet (mapInsert m k (TomlDataRepository.stepData (mapGet m k) c now)) k = _
    rw [stepData_empty (mapGet m k) c now (by omega), mapGet_insert_self]
  · intro q hq
    show mapGet (mapInsert m k (TomlDataRepository.stepData (mapGet m k) c now)) q = _
    exact mapGet_insert_ne m k q _ hq

theorem c7_witness :
    (TomlDataRepository.update [] "a" " " 3 true).2 = Except.ok () :=
  (c7_empty_content_still_checks [] "a" " " 3 (by decide)).1

/-- C8: a target whose poller errors on every attempt (and whose events all
arrive) is polled exactly once in each of the three retry rounds of a
tick: the fan-out starts exactly 3 poll attempts for it and then
terminates, handing control to the report step. -/
theorem c8_exactly_three_attempts (upd : UpdFun)
    (oracle : Nat → List (String × PollResult)) (t : String)
    (rem : List String) (store : DataMap)
    (hmem : t ∈ rem)
    (herr : ∀ r e, e ∈ oracle r → e.1 = t → e.2 = PollResult.err) :
    ((fanOutLoop upd oracle 3 (rem, store)).2.countP
      (fun l => decide (t ∈ l))) = 3 := by
  obtain ⟨hlen, hall⟩ := fanOutLoop_rounds upd oracle t herr 3 (rem, store) hmem
  rw [List.countP_eq_length.mpr (fun l hl => by simpa using hall l hl), hlen]

theorem c8_witness :
    ((fanOutLoop errStore (fun _ => [("t", PollResult.err)]) 3
      (["t"], [])).2.countP (fun l => decide ("t" ∈ l))) = 3 :=
  c8_exactly_three_attempts errStore (fun _ => [("t", PollResult.err)]) "t"
    ["t"] [] (by decide)
    (fun _ e he _ => by
      simp only [List.mem_singleton] at he
      rw [he])

/-- C9 (counterexample): loading a per-id config table whose `mode` field
holds the unknown string `banana` fails the load (the serde deserializer
rejects it) instead of defaulting to `full` as the claim states. -/
theorem c9_counterexample :
    loadEntryMode (some "banana") = none ∧
    loadEntryMode (some "banana") ≠ some Mode.full := by
  constructor
  · rfl
  · decide

/-- C9 (amended): an absent `mode` key defaults to `Mode::Full`; the known
strings `simple` and `full` parse to their modes; and any other `mode`
string fails the config load with a deserialization error rather than
defaulting. -/
theorem c9_mode_default_amended :
    loadEntryMode none = some Mode.full ∧
    loadEntryMode (some "simple") = some Mode.simple ∧
    loadEntryMode (some "full") = some Mode.full ∧
    ∀ s : String, s ≠ "simple" → s ≠ "full" → loadEntryMode (some s) = none := by
  refine ⟨rfl, by decide, by decide, ?_⟩
  intro s h1 h2
  simp [loadEntryMode, parseModeStr, h1, h2]

theorem c9_witness : loadEntryMode (some "x") = none :=
  c9_mode_default_amended.2.2.2 "x" (by decide) (by decide)

end Patrol
